import Mathlib

/-!
Verification of the lexical-analysis training example (BiGRU-CRF) of
PaddleNLP: the `evaluate` loop and argument parser of
`examples/lexical_analysis/train.py`, and the CRF loss engine, Viterbi
decoder and chunk evaluator that the script consumes from the library
(`paddlenlp.layers.crf`, `paddlenlp.metrics.ChunkEvaluator`), modelled
from the specification since only their call sites appear in the example.

Numbers are embedded exactly: counts as `Nat`, scores as `Rat`, and the
log-domain quantities of the CRF forward algorithm as `Real` (the spec's
"exact arithmetic" reading of the floating-point code).
-/

/-! ## Chunk evaluator accumulator

Modelled from the spec: `paddlenlp.metrics.ChunkEvaluator` is not under
the example directory; the spec describes an accumulator holding running
totals (num_predicted_chunks, num_gold_chunks, num_correct_chunks),
`update` summing raw counts, and `accumulate` deriving
precision / recall / F1 with zero-guards. -/

/-- Accumulator state: (num_infer_chunks, num_label_chunks, num_correct_chunks). -/
abbrev CEState := ℕ × ℕ × ℕ

namespace ChunkEvaluator

/-- `reset`: zero all running totals. -/
def reset : CEState := (0, 0, 0)

/-- `update`: add a batch's raw count triple onto the running totals. -/
def update (st : CEState) (b : CEState) : CEState :=
  (st.1 + b.1, st.2.1 + b.2.1, st.2.2 + b.2.2)

/-- `accumulate`: derive (precision, recall, f1) from the running totals.
precision = correct / predicted (0 if predicted = 0), recall = correct / gold
(0 if gold = 0), f1 = harmonic mean (0 if both precision and recall are 0). -/
def accumulate (st : CEState) : ℚ × ℚ × ℚ :=
  let p : ℚ := if st.1 = 0 then 0 else (st.2.2 : ℚ) / (st.1 : ℚ)
  let r : ℚ := if st.2.1 = 0 then 0 else (st.2.2 : ℚ) / (st.2.1 : ℚ)
  let f : ℚ := if p = 0 ∧ r = 0 then 0 else 2 * p * r / (p + r)
  (p, r, f)

end ChunkEvaluator

/-! ## Chunk extraction (BIO scheme)

Modelled from the spec: chunk extraction scans a tag sequence left to
right; a begin tag closes any open chunk and opens a new one, an inside
tag extends a matching open chunk and otherwise acts as a fresh begin,
an outside tag closes without opening, and the scan's end closes any
still-open chunk. -/

/-- A BIO tag: begin-of-chunk with a type, inside-chunk with a type, or outside. -/
inductive BioTag : Type
  | B (ty : ℕ)
  | I (ty : ℕ)
  | O
deriving DecidableEq

/-- A chunk is (type, start_index, end_index_exclusive). -/
abbrev Chunk := ℕ × ℕ × ℕ

/-- The scan, carrying the current index and the open chunk (type, start) if any. -/
def extractChunksAux : List BioTag → ℕ → Option (ℕ × ℕ) → List Chunk
  | [], idx, none => []
  | [], idx, some (ty, st) => [(ty, st, idx)]
  | BioTag.O :: rest, idx, none => extractChunksAux rest (idx + 1) none
  | BioTag.O :: rest, idx, some (ty, st) =>
      (ty, st, idx) :: extractChunksAux rest (idx + 1) none
  | BioTag.B ty :: rest, idx, none =>
      extractChunksAux rest (idx + 1) (some (ty, idx))
  | BioTag.B ty :: rest, idx, some (oty, st) =>
      (oty, st, idx) :: extractChunksAux rest (idx + 1) (some (ty, idx))
  | BioTag.I ty :: rest, idx, none =>
      extractChunksAux rest (idx + 1) (some (ty, idx))
  | BioTag.I ty :: rest, idx, some (oty, st) =>
      if ty = oty then extractChunksAux rest (idx + 1) (some (oty, st))
      else (oty, st, idx) :: extractChunksAux rest (idx + 1) (some (ty, idx))

/-- Extract the chunk list of one (already length-truncated) tag sequence. -/
def extractChunks (tags : List BioTag) : List Chunk :=
  extractChunksAux tags 0 none

/-- Chunk type ids for the 3-class scheme of the spec's example. -/
def PER : ℕ := 0

def LOC : ℕ := 1

def ORG : ℕ := 2

/-! ## The `evaluate` loop of train.py

Embedded from `examples/lexical_analysis/train.py`, lines 50-64.  The
model/metric.compute composite is opaque (a function from a batch to the
count triple); the metric state is the chunk-evaluator accumulator.
`evaluate` switches the model to eval mode, resets the metric, sets
`avg_loss, precision, recall, f1_score = 0, 0, 0, 0`, folds over the
batches (updating the metric and re-reading `accumulate` each batch,
never touching `avg_loss`), prints, and switches the model to train mode. -/

/-- Model mode: `model.train()` / `model.eval()`. -/
inductive Mode : Type
  | train
  | eval
deriving DecidableEq

/-- The loop-carried state of `evaluate`: the local `avg_loss`, the local
(precision, recall, f1_score) triple, and the metric's accumulator. -/
structure EvalLoopState : Type where
  avgLoss : ℚ
  prf : ℚ × ℚ × ℚ
  metricSt : CEState

/-- What `evaluate` leaves behind: the printed tuple
(avg_loss, precision, recall, f1), the metric's accumulator, and the
model's mode after the call. -/
structure EvalOut : Type where
  printed : ℚ × ℚ × ℚ × ℚ
  metricSt : CEState
  mode : Mode

/-- One iteration of the `for batch in data_loader` body: compute the
count triple, `metric.update`, and re-bind (precision, recall, f1_score)
from `metric.accumulate()`.  `avg_loss` is not assigned in the body. -/
def evalStep {B : Type} (computeFn : B → CEState) (acc : EvalLoopState) (b : B) :
    EvalLoopState :=
  let st := ChunkEvaluator.update acc.metricSt (computeFn b)
  { avgLoss := acc.avgLoss, prf := ChunkEvaluator.accumulate st, metricSt := st }

/-- The `evaluate` function of train.py.  `mode0` and `st0` are the model
mode and metric accumulator state on entry. -/
def evaluate {B : Type} (computeFn : B → CEState) (mode0 : Mode) (st0 : CEState)
    (batches : List B) : EvalOut :=
  -- model.eval(); metric.reset(); avg_loss, precision, recall, f1_score = 0,0,0,0
  let res := batches.foldl (evalStep computeFn)
    { avgLoss := 0, prf := (0, 0, 0), metricSt := ChunkEvaluator.reset }
  -- print(...); model.train()
  { printed := (res.avgLoss, res.prf.1, res.prf.2.1, res.prf.2.2),
    metricSt := res.metricSt,
    mode := Mode.train }

/-! ## The argument parser and training loop of train.py

Embedded from `examples/lexical_analysis/train.py`: the parser defines
exactly twelve arguments (lines 34-47); `train` reads
`args.logging_steps`, `args.save_steps` and `args.output_dir` inside the
step loop (lines 137-151).  Attribute access on the parsed namespace is
presence-checked: a name the parser never defined raises AttributeError. -/

/-- The destination names the argument parser defines. -/
def parserDests : List String :=
  ["data_dir", "init_checkpoint", "model_save_dir", "epochs", "batch_size",
   "max_seq_len", "device", "base_lr", "emb_dim", "hidden_size", "verbose",
   "do_eval"]

/-- `getattr(args, name)`: ok when the parser defined `name`, otherwise an
AttributeError carrying the missing name.  The attribute's value never
steers control flow before the point of failure, so it is elided. -/
def argsGet (name : String) : Except String Unit :=
  if name ∈ parserDests then Except.ok () else Except.error name

/-- The body of one training step at global step `gs` (train.py lines
137-151): the attribute reads it performs, in order.  Reads of arguments
the loop consumed before the loop (device, data_dir, ...) happen once,
outside; the body reads `logging_steps`, then `save_steps`, and
`output_dir` when saving. -/
def stepBody (gs lastStep : ℕ) : Except String Unit := do
  let _ ← argsGet "logging_steps"
  let _ ← argsGet "save_steps"
  if gs % 1 = 0 ∨ gs = lastStep then do
    let _ ← argsGet "output_dir"
    pure ()
  else pure ()

/-- The step loop: `remaining` steps left, `gs` completed so far. -/
def runSteps (lastStep : ℕ) : ℕ → ℕ → Except String Unit
  | 0, _ => Except.ok ()
  | remaining + 1, gs => do
    let _ ← stepBody (gs + 1) lastStep
    runSteps lastStep remaining (gs + 1)

/-- The `train` function: the pre-loop attribute reads (all of which the
parser defines), then `epochs * numBatches` training steps. -/
def trainRun (epochs numBatches : ℕ) : Except String Unit := do
  let _ ← argsGet "device"
  let _ ← argsGet "data_dir"
  let _ ← argsGet "max_seq_len"
  let _ ← argsGet "batch_size"
  let _ ← argsGet "emb_dim"
  let _ ← argsGet "hidden_size"
  let _ ← argsGet "base_lr"
  let _ ← argsGet "init_checkpoint"
  let _ ← argsGet "epochs"
  runSteps (epochs * numBatches) (epochs * numBatches) 0

/-! ## Theorems about the evaluate loop and the parser -/

/-- The fold of `evalStep` never changes the `avg_loss` component. -/
theorem evalStep_foldl_avgLoss {B : Type} (computeFn : B → CEState)
    (l : List B) (a : EvalLoopState) :
    (l.foldl (evalStep computeFn) a).avgLoss = a.avgLoss := by
  induction l generalizing a with
  | nil => rfl
  | cons b rest ih => simpa [evalStep] using ih _

/-- C1: In the evaluation loop `evaluate`, the reported average loss is
always exactly 0 regardless of the model, metric, or data: `avg_loss` is
initialized to 0, never updated inside the batch loop, and printed
unchanged. -/
theorem evaluate_avg_loss_zero {B : Type} (computeFn : B → CEState)
    (mode0 : Mode) (st0 : CEState) (batches : List B) :
    (evaluate computeFn mode0 st0 batches).printed.1 = 0 := by
  simpa [evaluate] using evalStep_foldl_avgLoss computeFn batches _

/-- The metric component of the fold is the fold of the plain updates. -/
theorem evalStep_foldl_metricSt {B : Type} (computeFn : B → CEState)
    (l : List B) (a : EvalLoopState) :
    (l.foldl (evalStep computeFn) a).metricSt =
      l.foldl (fun s b => ChunkEvaluator.update s (computeFn b)) a.metricSt := by
  induction l generalizing a with
  | nil => rfl
  | cons b rest ih => simpa [evalStep] using ih _

/-- If the carried (precision, recall, f1) triple agrees with
`accumulate` of the carried metric state, the fold preserves this. -/
theorem evalStep_foldl_prf {B : Type} (computeFn : B → CEState)
    (l : List B) (a : EvalLoopState)
    (h : a.prf = ChunkEvaluator.accumulate a.metricSt) :
    (l.foldl (evalStep computeFn) a).prf =
      ChunkEvaluator.accumulate (l.foldl (evalStep computeFn) a).metricSt := by
  induction l generalizing a with
  | nil => exact h
  | cons b rest ih => exact ih _ rfl

/-- `accumulate` of the zero accumulator is (0, 0, 0). -/
theorem accumulate_reset : ChunkEvaluator.accumulate ChunkEvaluator.reset = (0, 0, 0) := by
  decide

/-- C3: Every call to `evaluate` resets the chunk-evaluator accumulator to
zero before processing any batch: the accumulator it leaves behind is the
fold of this pass's batch updates started from zero — for any entry state
`st0` — and the (precision, recall, F1) it reports are `accumulate` of
exactly that accumulator, so counts never leak across evaluation passes. -/
theorem evaluate_resets_accumulator {B : Type} (computeFn : B → CEState)
    (mode0 : Mode) (st0 st0' : CEState) (batches : List B) :
    (evaluate computeFn mode0 st0 batches).metricSt =
      batches.foldl (fun s b => ChunkEvaluator.update s (computeFn b)) (0, 0, 0) ∧
    (evaluate computeFn mode0 st0 batches).printed.2 =
      ChunkEvaluator.accumulate (evaluate computeFn mode0 st0 batches).metricSt ∧
    evaluate computeFn mode0 st0 batches = evaluate computeFn mode0 st0' batches := by
  refine ⟨?_, ?_, rfl⟩
  · simpa [evaluate, ChunkEvaluator.reset] using
      evalStep_foldl_metricSt computeFn batches _
  · have h := evalStep_foldl_prf computeFn batches
      { avgLoss := 0, prf := (0, 0, 0), metricSt := ChunkEvaluator.reset }
      (by simpa using accumulate_reset.symm)
    simpa [evaluate] using h.symm ▸ rfl

/-- C10: After every call to `evaluate` returns, the model is left in
training mode regardless of the mode it was in before the call:
`evaluate` calls model.eval() on entry and unconditionally calls
model.train() before returning. -/
theorem evaluate_leaves_train_mode {B : Type} (computeFn : B → CEState)
    (mode0 : Mode) (st0 : CEState) (batches : List B) :
    (evaluate computeFn mode0 st0 batches).mode = Mode.train := rfl

/-- C7: Accumulator additivity: calling `update` twice with count triples
b1 and b2 and then `accumulate` yields the same (precision, recall, F1)
as a single `update` with the summed counts, because raw counts are
summed across calls before ratios are derived. -/
theorem chunk_evaluator_additive (st b1 b2 : CEState) :
    ChunkEvaluator.accumulate (ChunkEvaluator.update (ChunkEvaluator.update st b1) b2) =
      ChunkEvaluator.accumulate
        (ChunkEvaluator.update st (b1.1 + b2.1, b1.2.1 + b2.2.1, b1.2.2 + b2.2.2)) := by
  have h : ChunkEvaluator.update (ChunkEvaluator.update st b1) b2 =
      ChunkEvaluator.update st (b1.1 + b2.1, b1.2.1 + b2.2.1, b1.2.2 + b2.2.2) := by
    simp [ChunkEvaluator.update, Nat.add_assoc]
  rw [h]

/-- C8: Chunk extraction under the 3-class BIO scheme maps
[B-PER, I-PER, O, B-LOC, B-LOC] to exactly
[(PER,0,2), (LOC,3,4), (LOC,4,5)]: a begin tag immediately following
another begin tag closes the open chunk and opens a new one. -/
theorem chunk_extraction_bio_example :
    extractChunks
        [BioTag.B PER, BioTag.I PER, BioTag.O, BioTag.B LOC, BioTag.B LOC] =
      [(PER, 0, 2), (LOC, 3, 4), (LOC, 4, 5)] := by
  decide

/-- "logging_steps" is not an argument the parser defines. -/
theorem logging_steps_not_defined : "logging_steps" ∉ parserDests := by decide

/-- C2: For every invocation of the script through its own argument
parser, the training loop raises an AttributeError on the first training
step: `train` reads `args.logging_steps` (and later `args.save_steps`
and `args.output_dir`) while the parser defines none of these, so as soon
as one step runs, the access fails. -/
theorem train_raises_attribute_error (epochs numBatches : ℕ)
    (he : 0 < epochs) (hb : 0 < numBatches) :
    trainRun epochs numBatches = Except.error "logging_steps" ∧
    "logging_steps" ∉ parserDests ∧ "save_steps" ∉ parserDests ∧
    "output_dir" ∉ parserDests := by
  refine ⟨?_, by decide, by decide, by decide⟩
  have hpos : 0 < epochs * numBatches := Nat.mul_pos he hb
  obtain ⟨k, hk⟩ : ∃ k, epochs * numBatches = k + 1 :=
    ⟨epochs * numBatches - 1, (Nat.succ_pred_eq_of_pos hpos).symm⟩
  simp only [trainRun, hk, runSteps, stepBody, argsGet, parserDests]
  rfl

/-- Witness for C2 at a concrete invocation: one epoch, one batch. -/
theorem train_raises_attribute_error_witness :
    trainRun 1 1 = Except.error "logging_steps" ∧
    "logging_steps" ∉ parserDests ∧ "save_steps" ∉ parserDests ∧
    "output_dir" ∉ parserDests :=
  train_raises_attribute_error 1 1 (by decide) (by decide)

/-! ## Viterbi decoder

Modelled from the spec: `paddlenlp.layers.crf.ViterbiDecoder` is not
under the example directory.  One example at a time (batch independence),
labels are `Fin (L + 1)` (num_labels ≥ 1), emissions are a function of
position and label, the transition model is the matrix `trans` plus the
start/end boundary vectors `startV` / `stopV`, and scores are exact
rationals.  `delta t j` is the best score of any path ending at label `j`
at position `t`; ties in the recurrence select the lowest label id. -/

section Viterbi

variable {L : ℕ}

/-- The maximum of a score vector over all labels. -/
def maxVal (g : Fin (L + 1) → ℚ) : ℚ :=
  Finset.univ.sup' Finset.univ_nonempty g

theorem le_maxVal (g : Fin (L + 1) → ℚ) (j : Fin (L + 1)) : g j ≤ maxVal g :=
  Finset.le_sup' g (Finset.mem_univ j)

theorem argmaxSet_nonempty (g : Fin (L + 1) → ℚ) :
    (Finset.univ.filter (fun i => g i = maxVal g)).Nonempty := by
  obtain ⟨b, -, hb⟩ := Finset.exists_mem_eq_sup' Finset.univ_nonempty g
  exact ⟨b, Finset.mem_filter.mpr ⟨Finset.mem_univ b, hb.symm⟩⟩

/-- The lowest label id achieving the maximum of a score vector. -/
def argmaxLow (g : Fin (L + 1) → ℚ) : Fin (L + 1) :=
  (Finset.univ.filter (fun i => g i = maxVal g)).min' (argmaxSet_nonempty g)

theorem argmaxLow_eq_maxVal (g : Fin (L + 1) → ℚ) : g (argmaxLow g) = maxVal g :=
  (Finset.mem_filter.mp (Finset.min'_mem _ (argmaxSet_nonempty g))).2

theorem argmaxLow_le (g : Fin (L + 1) → ℚ) (j : Fin (L + 1)) (h : g j = maxVal g) :
    argmaxLow g ≤ j :=
  Finset.min'_le _ j (Finset.mem_filter.mpr ⟨Finset.mem_univ j, h⟩)

variable (emis : ℕ → Fin (L + 1) → ℚ) (trans : Fin (L + 1) → Fin (L + 1) → ℚ)
variable (startV stopV : Fin (L + 1) → ℚ)

/-- Viterbi dynamic-programming table: best score of a path ending at
label `j` at position `t`, seeded from the start boundary plus the first
emission, with the max-over-predecessors recurrence. -/
def delta : ℕ → Fin (L + 1) → ℚ
  | 0, j => startV j + emis 0 j
  | t + 1, j => maxVal (fun i => delta t i + trans i j) + emis (t + 1) j

/-- Backpointer for position `t + 1` at label `j`: the predecessor label
at position `t` achieving the recurrence's maximum, lowest id on ties. -/
def bp (t : ℕ) (j : Fin (L + 1)) : Fin (L + 1) :=
  argmaxLow (fun i => delta emis trans startV t i + trans i j)

/-- Backtracking: the labels of positions `0..t` of the best path ending
at label `j` at position `t`. -/
def backtrack : ℕ → Fin (L + 1) → List (Fin (L + 1))
  | 0, j => [j]
  | t + 1, j => backtrack t (bp emis trans startV t j) ++ [j]

/-- The label at the final valid position `n - 1` seeding backtracking:
argmax, after adding the end-boundary transition. -/
def bestLast (n : ℕ) : Fin (L + 1) :=
  argmaxLow (fun j => delta emis trans startV (n - 1) j + stopV j)

/-- The decoder's returned best path score for an example of length `n`. -/
def bestScore (n : ℕ) : ℚ :=
  maxVal (fun j => delta emis trans startV (n - 1) j + stopV j)

/-- The decoder's returned best labels for an example of length `n`
(positions `0..n-1`; padded positions carry an ignorable placeholder and
are not part of the decoded path). -/
def bestLabels (n : ℕ) : List (Fin (L + 1)) :=
  backtrack emis trans startV (n - 1) (bestLast emis trans startV stopV n)

/-- `decode` for one example: (best_labels, best_score). -/
def viterbiDecode (n : ℕ) : List (Fin (L + 1)) × ℚ :=
  (bestLabels emis trans startV stopV n, bestScore emis trans startV stopV n)

/-- Gold-path score bookkeeping of the CRF loss engine, restricted to
positions `0..t`: start boundary plus emissions at each position's label
plus transitions between consecutive labels, end boundary excluded. -/
def seqScore : ℕ → (ℕ → Fin (L + 1)) → ℚ
  | 0, p => startV (p 0) + emis 0 (p 0)
  | t + 1, p => seqScore t p + trans (p t) (p (t + 1)) + emis (t + 1) (p (t + 1))

/-- The loss engine's gold-path formula for a label path of true length
`n`: per-position emissions, consecutive transitions, and the start/end
boundary contributions. -/
def pathScore (n : ℕ) (p : ℕ → Fin (L + 1)) : ℚ :=
  seqScore emis trans startV (n - 1) p + stopV (p (n - 1))

theorem backtrack_length (t : ℕ) (j : Fin (L + 1)) :
    (backtrack emis trans startV t j).length = t + 1 := by
  induction t generalizing j with
  | zero => rfl
  | succ t ih => simp [backtrack, ih]

theorem backtrack_getD_last (t : ℕ) (j d : Fin (L + 1)) :
    (backtrack emis trans startV t j).getD t d = j := by
  cases t with
  | zero => rfl
  | succ t =>
    rw [backtrack, List.getD_append_right _ _ _ _ (by simp [backtrack_length])]
    simp [backtrack_length]

theorem seqScore_congr_path (t : ℕ) (p q : ℕ → Fin (L + 1))
    (h : ∀ k, k ≤ t → p k = q k) :
    seqScore emis trans startV t p = seqScore emis trans startV t q := by
  induction t with
  | zero => simp [seqScore, h 0 (Nat.le_refl 0)]
  | succ t ih =>
    rw [seqScore, seqScore, ih (fun k hk => h k (Nat.le_succ_of_le hk)),
      h t (Nat.le_succ t), h (t + 1) (Nat.le_refl (t + 1))]

/-- The score of the backtracked path ending at `(t, j)` equals the
dynamic-programming value `delta t j`. -/
theorem backtrack_seqScore (t : ℕ) (j : Fin (L + 1)) :
    seqScore emis trans startV t
        (fun k => (backtrack emis trans startV t j).getD k 0) =
      delta emis trans startV t j := by
  induction t generalizing j with
  | zero => simp [backtrack, seqScore, delta]
  | succ t ih =>
    rw [backtrack, seqScore]
    have hlen : (backtrack emis trans startV t
        (bp emis trans startV t j)).length = t + 1 :=
      backtrack_length emis trans startV t _
    have hat : (backtrack emis trans startV t (bp emis trans startV t j)
        ++ [j]).getD (t + 1) (0 : Fin (L + 1)) = j := by
      rw [List.getD_append_right _ _ _ _ (by rw [hlen])]
      simp [hlen]
    have hprev : (backtrack emis trans startV t (bp emis trans startV t j)
        ++ [j]).getD t (0 : Fin (L + 1)) = bp emis trans startV t j := by
      rw [List.getD_append _ _ _ _ (by rw [hlen]; exact Nat.lt_succ_self t)]
      exact backtrack_getD_last emis trans startV t _ 0
    have hseq : seqScore emis trans startV t
        (fun k => (backtrack emis trans startV t (bp emis trans startV t j)
          ++ [j]).getD k 0) =
        seqScore emis trans startV t
          (fun k => (backtrack emis trans startV t
            (bp emis trans startV t j)).getD k 0) := by
      refine seqScore_congr_path emis trans startV t _ _ (fun k hk => ?_)
      rw [List.getD_append _ _ _ _ (by rw [hlen]; exact Nat.lt_succ_of_le hk)]
    rw [hat, hprev, hseq, ih]
    have harg : delta emis trans startV t (bp emis trans startV t j)
        + trans (bp emis trans startV t j) j =
        maxVal (fun i => delta emis trans startV t i + trans i j) :=
      argmaxLow_eq_maxVal (fun i => delta emis trans startV t i + trans i j)
    rw [harg, delta]

end Viterbi

/-- C4: For all inputs, the best_score returned by the Viterbi Decoder for
an example equals the score the CRF Loss Engine's gold-path formula (per
position emissions at the path's labels, transitions between consecutive
labels, and start/end boundary contributions, restricted to the true
length) assigns to the returned best_labels of that example. -/
theorem viterbi_best_score_eq_gold_path_score {L : ℕ}
    (emis : ℕ → Fin (L + 1) → ℚ) (trans : Fin (L + 1) → Fin (L + 1) → ℚ)
    (startV stopV : Fin (L + 1) → ℚ) (n maxLen : ℕ)
    (h1 : 1 ≤ n) (h2 : n ≤ maxLen) :
    pathScore emis trans startV stopV n
        (fun k => (viterbiDecode emis trans startV stopV n).1.getD k 0) =
      (viterbiDecode emis trans startV stopV n).2 := by
  show pathScore emis trans startV stopV n
      (fun k => (bestLabels emis trans startV stopV n).getD k 0) =
    bestScore emis trans startV stopV n
  rw [pathScore, bestLabels]
  rw [backtrack_getD_last, backtrack_seqScore]
  exact argmaxLow_eq_maxVal
    (fun j => delta emis trans startV (n - 1) j + stopV j)

/-- Witness for C4 at a concrete input: one label, length 1, zero scores. -/
theorem viterbi_best_score_eq_gold_path_score_witness :
    pathScore (L := 0) (fun _ _ => 0) (fun _ _ => 0) (fun _ => 0) (fun _ => 0) 1
        (fun k => (viterbiDecode (L := 0) (fun _ _ => 0) (fun _ _ => 0)
          (fun _ => 0) (fun _ => 0) 1).1.getD k 0) =
      (viterbiDecode (L := 0) (fun _ _ => 0) (fun _ _ => 0)
        (fun _ => 0) (fun _ => 0) 1).2 :=
  viterbi_best_score_eq_gold_path_score (fun _ _ => 0) (fun _ _ => 0)
    (fun _ => 0) (fun _ => 0) 1 1 (by decide) (by decide)

/-- C5: Viterbi decoding is deterministic: identical emissions,
transitions and boundary vectors yield identical decode results; and in
the recurrence, the chosen backpointer achieves the maximum over
predecessor labels, and every predecessor label achieving that maximum is
at or above the chosen one (lowest label id selected on ties). -/
theorem viterbi_deterministic_lowest_tiebreak {L : ℕ}
    (e1 e2 : ℕ → Fin (L + 1) → ℚ) (t1 t2 : Fin (L + 1) → Fin (L + 1) → ℚ)
    (s1 s2 f1 f2 : Fin (L + 1) → ℚ) (n : ℕ)
    (he : e1 = e2) (ht : t1 = t2) (hs : s1 = s2) (hf : f1 = f2) :
    viterbiDecode e1 t1 s1 f1 n = viterbiDecode e2 t2 s2 f2 n ∧
    ∀ (t : ℕ) (j i : Fin (L + 1)),
      delta e1 t1 s1 t i + t1 i j ≤
        delta e1 t1 s1 t (bp e1 t1 s1 t j) + t1 (bp e1 t1 s1 t j) j ∧
      (delta e1 t1 s1 t i + t1 i j =
        delta e1 t1 s1 t (bp e1 t1 s1 t j) + t1 (bp e1 t1 s1 t j) j →
        bp e1 t1 s1 t j ≤ i) := by
  subst he ht hs hf
  refine ⟨rfl, fun t j i => ?_⟩
  have hmax : delta e1 t1 s1 t (bp e1 t1 s1 t j) + t1 (bp e1 t1 s1 t j) j =
      maxVal (fun i => delta e1 t1 s1 t i + t1 i j) :=
    argmaxLow_eq_maxVal (fun i => delta e1 t1 s1 t i + t1 i j)
  constructor
  · rw [hmax]
    exact le_maxVal (fun i => delta e1 t1 s1 t i + t1 i j) i
  · intro h
    exact argmaxLow_le (fun i => delta e1 t1 s1 t i + t1 i j) i (h.trans hmax)

/-- Witness for C5 at a concrete input: one label, length 1, zero scores. -/
theorem viterbi_deterministic_lowest_tiebreak_witness :
    viterbiDecode (L := 0) (fun _ _ => 0) (fun _ _ => 0) (fun _ => 0)
        (fun _ => 0) 1 =
      viterbiDecode (L := 0) (fun _ _ => 0) (fun _ _ => 0) (fun _ => 0)
        (fun _ => 0) 1 ∧
    ∀ (t : ℕ) (j i : Fin 1),
      delta (L := 0) (fun _ _ => 0) (fun _ _ => 0) (fun _ => 0) t i
          + (fun _ _ => (0 : ℚ)) i j ≤
        delta (L := 0) (fun _ _ => 0) (fun _ _ => 0) (fun _ => 0) t
            (bp (fun _ _ => 0) (fun _ _ => 0) (fun _ => 0) t j)
          + (fun _ _ => (0 : ℚ))
            (bp (fun _ _ => 0) (fun _ _ => 0) (fun _ => 0) t j) j ∧
      (delta (L := 0) (fun _ _ => 0) (fun _ _ => 0) (fun _ => 0) t i
          + (fun _ _ => (0 : ℚ)) i j =
        delta (L := 0) (fun _ _ => 0) (fun _ _ => 0) (fun _ => 0) t
            (bp (fun _ _ => 0) (fun _ _ => 0) (fun _ => 0) t j)
          + (fun _ _ => (0 : ℚ))
            (bp (fun _ _ => 0) (fun _ _ => 0) (fun _ => 0) t j) j →
        bp (fun _ _ => 0) (fun _ _ => 0) (fun _ => 0) t j ≤ i) :=
  viterbi_deterministic_lowest_tiebreak (fun _ _ => 0) (fun _ _ => 0)
    (fun _ _ => 0) (fun _ _ => 0) (fun _ => 0) (fun _ => 0) (fun _ => 0)
    (fun _ => 0) 1 rfl rfl rfl rfl

/-! ## CRF loss engine (forward algorithm)

Modelled from the spec: `paddlenlp.layers.crf.LinearChainCrfLoss` is not
under the example directory.  `alpha` is the log-space forward vector,
updated with the numerically stable log-sum-exp (subtract the running
maximum before exponentiating); `logZ` reduces the last valid position
plus the end boundary; the per-example loss is `log_Z - gold_path_score`.
Log-space values live in `ℝ` (the exact-arithmetic reading). -/

section CRFLoss

variable {L : ℕ}

/-- Numerically stable log-sum-exp over all labels: subtract the running
maximum before exponentiating. -/
noncomputable def lse (g : Fin (L + 1) → ℝ) : ℝ :=
  Finset.univ.sup' Finset.univ_nonempty g +
    Real.log (∑ j, Real.exp (g j - Finset.univ.sup' Finset.univ_nonempty g))

/-- In exact arithmetic the max-subtraction is an identity:
`exp (lse g) = ∑ exp (g j)`. -/
theorem exp_lse (g : Fin (L + 1) → ℝ) :
    Real.exp (lse g) = ∑ j, Real.exp (g j) := by
  set m := Finset.univ.sup' Finset.univ_nonempty g with hm
  have hpos : 0 < ∑ j : Fin (L + 1), Real.exp (g j - m) :=
    Finset.sum_pos (fun j _ => Real.exp_pos _) Finset.univ_nonempty
  rw [lse, ← hm, Real.exp_add, Real.exp_log hpos, Finset.mul_sum]
  refine Finset.sum_congr rfl (fun j _ => ?_)
  rw [← Real.exp_add]
  have h : m + (g j - m) = g j := by ring
  rw [h]

variable (emis : ℕ → Fin (L + 1) → ℚ) (trans : Fin (L + 1) → Fin (L + 1) → ℚ)
variable (startV stopV : Fin (L + 1) → ℚ)

/-- Log-space forward vector: total score of all label paths ending at
each label at the current position, seeded from the start boundary plus
the first emission, updated with log-sum-exp over predecessors. -/
noncomputable def alpha : ℕ → Fin (L + 1) → ℝ
  | 0, j => (startV j : ℝ) + (emis 0 j : ℝ)
  | t + 1, j => lse (fun i => alpha t i + (trans i j : ℝ)) + (emis (t + 1) j : ℝ)

/-- The log partition function of an example of true length `n`: after
the last valid position, add the end boundary and reduce with
log-sum-exp over all labels. -/
noncomputable def logZ (n : ℕ) : ℝ :=
  lse (fun j => alpha emis trans startV (n - 1) j + (stopV j : ℝ))

/-- Per-example loss of the CRF loss engine: `log_Z - gold_path_score`
for the gold label sequence `g` of true length `n`. -/
noncomputable def crfLoss (g : ℕ → Fin (L + 1)) (n : ℕ) : ℝ :=
  logZ emis trans startV stopV n - ((pathScore emis trans startV stopV n g : ℚ) : ℝ)

/-- The exponentiated score of any single path prefix is at most the
exponentiated forward value at its endpoint. -/
theorem exp_seqScore_le_exp_alpha (t : ℕ) (p : ℕ → Fin (L + 1)) :
    Real.exp ((seqScore emis trans startV t p : ℚ) : ℝ) ≤
      Real.exp (alpha emis trans startV t (p t)) := by
  induction t with
  | zero =>
    rw [seqScore, alpha]
    push_cast
    exact le_refl _
  | succ t ih =>
    rw [seqScore, alpha]
    push_cast
    rw [Real.exp_add, Real.exp_add, Real.exp_add]
    refine mul_le_mul_of_nonneg_right ?_ (Real.exp_pos _).le
    calc
      Real.exp ((seqScore emis trans startV t p : ℚ) : ℝ) *
          Real.exp ((trans (p t) (p (t + 1)) : ℚ) : ℝ) ≤
          Real.exp (alpha emis trans startV t (p t)) *
            Real.exp ((trans (p t) (p (t + 1)) : ℚ) : ℝ) :=
        mul_le_mul_of_nonneg_right ih (Real.exp_pos _).le
      _ = Real.exp (alpha emis trans startV t (p t) +
            ((trans (p t) (p (t + 1)) : ℚ) : ℝ)) := (Real.exp_add _ _).symm
      _ ≤ ∑ i, Real.exp (alpha emis trans startV t i +
            ((trans i (p (t + 1)) : ℚ) : ℝ)) :=
        Finset.single_le_sum
          (f := fun i => Real.exp (alpha emis trans startV t i +
            ((trans i (p (t + 1)) : ℚ) : ℝ)))
          (fun i _ => (Real.exp_pos _).le) (Finset.mem_univ _)
      _ = Real.exp (lse (fun i => alpha emis trans startV t i +
            ((trans i (p (t + 1)) : ℚ) : ℝ))) := (exp_lse _).symm

end CRFLoss

/-- C9: For every valid input (length in [1, max_len], gold labels in
[0, num_labels) — the label type), the CRF Loss Engine's per-example loss
`log_Z - gold_path_score` is ≥ 0 in exact arithmetic. -/
theorem crf_loss_nonneg {L : ℕ}
    (emis : ℕ → Fin (L + 1) → ℚ) (trans : Fin (L + 1) → Fin (L + 1) → ℚ)
    (startV stopV : Fin (L + 1) → ℚ) (g : ℕ → Fin (L + 1)) (n maxLen : ℕ)
    (h1 : 1 ≤ n) (h2 : n ≤ maxLen) :
    0 ≤ crfLoss emis trans startV stopV g n := by
  rw [crfLoss, sub_nonneg]
  have hexp : Real.exp ((pathScore emis trans startV stopV n g : ℚ) : ℝ) ≤
      Real.exp (logZ emis trans startV stopV n) := by
    rw [pathScore, logZ, exp_lse]
    push_cast
    rw [Real.exp_add]
    calc
      Real.exp ((seqScore emis trans startV (n - 1) g : ℚ) : ℝ) *
          Real.exp ((stopV (g (n - 1)) : ℚ) : ℝ) ≤
          Real.exp (alpha emis trans startV (n - 1) (g (n - 1))) *
            Real.exp ((stopV (g (n - 1)) : ℚ) : ℝ) :=
        mul_le_mul_of_nonneg_right
          (exp_seqScore_le_exp_alpha emis trans startV (n - 1) g)
          (Real.exp_pos _).le
      _ = Real.exp (alpha emis trans startV (n - 1) (g (n - 1)) +
            ((stopV (g (n - 1)) : ℚ) : ℝ)) := (Real.exp_add _ _).symm
      _ ≤ ∑ j, Real.exp (alpha emis trans startV (n - 1) j +
            ((stopV j : ℚ) : ℝ)) :=
        Finset.single_le_sum
          (f := fun j => Real.exp (alpha emis trans startV (n - 1) j +
            ((stopV j : ℚ) : ℝ)))
          (fun j _ => (Real.exp_pos _).le) (Finset.mem_univ _)
  exact Real.exp_le_exp.mp hexp

/-- Witness for C9 at a concrete input: one label, length 1, zero scores. -/
theorem crf_loss_nonneg_witness :
    0 ≤ crfLoss (L := 0) (fun _ _ => 0) (fun _ _ => 0) (fun _ => 0)
        (fun _ => 0) (fun _ => 0) 1 :=
  crf_loss_nonneg (fun _ _ => 0) (fun _ _ => 0) (fun _ => 0) (fun _ => 0)
    (fun _ => 0) 1 1 (by decide) (by decide)

/-! ## Padding invariance: only positions below the true length matter -/

section Padding

variable {L : ℕ}
variable (e1 e2 : ℕ → Fin (L + 1) → ℚ) (trans : Fin (L + 1) → Fin (L + 1) → ℚ)
variable (startV stopV : Fin (L + 1) → ℚ)

theorem delta_congr (t : ℕ)
    (h : ∀ k, k ≤ t → ∀ j, e1 k j = e2 k j) (j : Fin (L + 1)) :
    delta e1 trans startV t j = delta e2 trans startV t j := by
  induction t generalizing j with
  | zero => rw [delta, delta, h 0 (Nat.le_refl 0)]
  | succ t ih =>
    rw [delta, delta, h (t + 1) (Nat.le_refl (t + 1))]
    have hfun : (fun i => delta e1 trans startV t i + trans i j) =
        (fun i => delta e2 trans startV t i + trans i j) :=
      funext fun i => by
        rw [ih (fun k hk j' => h k (Nat.le_succ_of_le hk) j') i]
    rw [hfun]

theorem bp_congr (t : ℕ)
    (h : ∀ k, k ≤ t → ∀ j, e1 k j = e2 k j) (j : Fin (L + 1)) :
    bp e1 trans startV t j = bp e2 trans startV t j := by
  rw [bp, bp]
  have hfun : (fun i => delta e1 trans startV t i + trans i j) =
      (fun i => delta e2 trans startV t i + trans i j) :=
    funext fun i => by rw [delta_congr e1 e2 trans startV t h i]
  rw [hfun]

theorem backtrack_congr (t : ℕ)
    (h : ∀ k, k ≤ t → ∀ j, e1 k j = e2 k j) (j : Fin (L + 1)) :
    backtrack e1 trans startV t j = backtrack e2 trans startV t j := by
  induction t generalizing j with
  | zero => rfl
  | succ t ih =>
    have h' : ∀ k, k ≤ t → ∀ j', e1 k j' = e2 k j' :=
      fun k hk j' => h k (Nat.le_succ_of_le hk) j'
    rw [backtrack, backtrack, bp_congr e1 e2 trans startV t h' j, ih h' _]

theorem seqScore_congr_emis (t : ℕ)
    (h : ∀ k, k ≤ t → ∀ j, e1 k j = e2 k j) (p : ℕ → Fin (L + 1)) :
    seqScore e1 trans startV t p = seqScore e2 trans startV t p := by
  induction t with
  | zero => rw [seqScore, seqScore, h 0 (Nat.le_refl 0)]
  | succ t ih =>
    rw [seqScore, seqScore, h (t + 1) (Nat.le_refl (t + 1)),
      ih (fun k hk j' => h k (Nat.le_succ_of_le hk) j')]

theorem alpha_congr (t : ℕ)
    (h : ∀ k, k ≤ t → ∀ j, e1 k j = e2 k j) (j : Fin (L + 1)) :
    alpha e1 trans startV t j = alpha e2 trans startV t j := by
  induction t generalizing j with
  | zero => rw [alpha, alpha, h 0 (Nat.le_refl 0)]
  | succ t ih =>
    rw [alpha, alpha, h (t + 1) (Nat.le_refl (t + 1))]
    have hfun : (fun i => alpha e1 trans startV t i + (trans i j : ℝ)) =
        (fun i => alpha e2 trans startV t i + (trans i j : ℝ)) :=
      funext fun i => by
        rw [ih (fun k hk j' => h k (Nat.le_succ_of_le hk) j') i]
    rw [hfun]

end Padding

/-- C6: Padding invariance: two runs differing only in emission values at
positions ≥ length produce identical results — neither the decoded
(best_labels, best_score) of the Viterbi Decoder nor the loss computed by
the CRF Loss Engine changes. -/
theorem padding_invariance {L : ℕ}
    (e1 e2 : ℕ → Fin (L + 1) → ℚ) (trans : Fin (L + 1) → Fin (L + 1) → ℚ)
    (startV stopV : Fin (L + 1) → ℚ) (g : ℕ → Fin (L + 1)) (n maxLen : ℕ)
    (h1 : 1 ≤ n) (h2 : n ≤ maxLen)
    (he : ∀ t, t < n → ∀ j, e1 t j = e2 t j) :
    viterbiDecode e1 trans startV stopV n = viterbiDecode e2 trans startV stopV n ∧
    crfLoss e1 trans startV stopV g n = crfLoss e2 trans startV stopV g n := by
  have h' : ∀ k, k ≤ n - 1 → ∀ j, e1 k j = e2 k j := by
    intro k hk j
    exact he k (by omega) j
  have hdelta : (fun j => delta e1 trans startV (n - 1) j + stopV j) =
      (fun j => delta e2 trans startV (n - 1) j + stopV j) :=
    funext fun j => by rw [delta_congr e1 e2 trans startV (n - 1) h' j]
  constructor
  · rw [viterbiDecode, viterbiDecode, bestLabels, bestLabels, bestScore,
      bestScore, bestLast, bestLast, hdelta,
      backtrack_congr e1 e2 trans startV (n - 1) h' _]
  · rw [crfLoss, crfLoss, logZ, logZ, pathScore, pathScore,
      seqScore_congr_emis e1 e2 trans startV (n - 1) h' g]
    have halpha : (fun j => alpha e1 trans startV (n - 1) j + (stopV j : ℝ)) =
        (fun j => alpha e2 trans startV (n - 1) j + (stopV j : ℝ)) :=
      funext fun j => by rw [alpha_congr e1 e2 trans startV (n - 1) h' j]
    rw [halpha]

/-- Witness for C6 at a concrete input: length 1, two emission tensors
that agree at position 0 but differ at every padded position. -/
theorem padding_invariance_witness :
    viterbiDecode (L := 0) (fun t _ => if t = 0 then 0 else 1)
        (fun _ _ => 0) (fun _ => 0) (fun _ => 0) 1 =
      viterbiDecode (L := 0) (fun t _ => if t = 0 then 0 else 2)
        (fun _ _ => 0) (fun _ => 0) (fun _ => 0) 1 ∧
    crfLoss (L := 0) (fun t _ => if t = 0 then 0 else 1)
        (fun _ _ => 0) (fun _ => 0) (fun _ => 0) (fun _ => 0) 1 =
      crfLoss (L := 0) (fun t _ => if t = 0 then 0 else 2)
        (fun _ _ => 0) (fun _ => 0) (fun _ => 0) (fun _ => 0) 1 :=
  padding_invariance (fun t _ => if t = 0 then 0 else 1)
    (fun t _ => if t = 0 then 0 else 2) (fun _ _ => 0) (fun _ => 0)
    (fun _ => 0) (fun _ => 0) 1 1 (by decide) (by decide)
    (fun t ht _ => by
      have h0 : t = 0 := Nat.lt_one_iff.mp ht
      subst h0
      rfl)
